import Mathlib

/-!
Shallow embedding of `src/u128.rs` from the `extprim` crate: a 128-bit
unsigned integer built from two 64-bit limbs, with wrapping / checked /
overflowing / saturating arithmetic, shifts, radix parsing and formatting.

Machine integers are embedded as `Nat` with explicit reduction modulo
`2 ^ 64` (limbs), `2 ^ 32` (the `u32` shift argument) or `2 ^ 128`.
Functions that can panic in Rust return `Option` with `none` for a panic.
-/

namespace Extprim

/-- The u64 limb modulus `2 ^ 64`. -/
def P64 : Nat := 18446744073709551616

/-- The full-width modulus `2 ^ 128`. -/
def P128 : Nat := 340282366920938463463374607431768211456

/-- The u32 modulus `2 ^ 32`, used for the shift argument type. -/
def P32 : Nat := 4294967296

/-- Rust `u64::overflowing_add`: wrapped sum and carry flag. -/
def u64_overflowing_add (a b : Nat) : Nat × Bool :=
  ((a + b) % P64, decide (P64 ≤ a + b))

/-- Rust `u64::wrapping_add`. -/
def u64_wrapping_add (a b : Nat) : Nat :=
  (a + b) % P64

/-- Rust `u64::overflowing_sub`: wrapped difference and borrow flag. -/
def u64_overflowing_sub (a b : Nat) : Nat × Bool :=
  ((a + P64 - b) % P64, decide (a < b))

/-- Rust `u64::wrapping_sub`. -/
def u64_wrapping_sub (a b : Nat) : Nat :=
  (a + P64 - b) % P64

/-- Rust `u64::wrapping_mul`. -/
def u64_wrapping_mul (a b : Nat) : Nat :=
  a * b % P64

/-- Rust `u64::overflowing_mul`: wrapped product and overflow flag. -/
def u64_overflowing_mul (a b : Nat) : Nat × Bool :=
  (a * b % P64, decide (P64 ≤ a * b))

/-- Rust `u64::wrapping_shl`: the shift amount is taken modulo 64. -/
def u64_wrapping_shl (a s : Nat) : Nat :=
  a * 2 ^ (s % 64) % P64

/-- Rust `u64::wrapping_shr`: the shift amount is taken modulo 64. -/
def u64_wrapping_shr (a s : Nat) : Nat :=
  a / 2 ^ (s % 64)

/-- Rust `u32::wrapping_sub`, used for `64u32.wrapping_sub(shift)`. -/
def u32_wrapping_sub (a b : Nat) : Nat :=
  (a + P32 - b) % P32

/-- The two-limb value type of `src/u128.rs`: low and high 64-bit limbs. -/
structure u128 where
  lo : Nat
  hi : Nat
deriving DecidableEq, Repr

/-- A `u128` is valid when both limbs are in u64 range. -/
def u128.Valid (x : u128) : Prop :=
  x.lo < P64 ∧ x.hi < P64

instance (x : u128) : Decidable x.Valid := by
  unfold u128.Valid
  infer_instance

/-- Numeric value `hi * 2^64 + lo` of a two-limb value. -/
def u128.toNat (x : u128) : Nat :=
  x.hi * P64 + x.lo

/-- Split a natural number below `2^128` into two limbs. -/
def u128.ofNat (n : Nat) : u128 :=
  ⟨n % P64, n / P64 % P64⟩

/-- The constant `ZERO = MIN`. -/
def ZERO : u128 := ⟨0, 0⟩

/-- The constant `ONE`. -/
def ONE : u128 := ⟨1, 0⟩

/-- The constant `MAX`, both limbs `u64::MAX`. -/
def MAX : u128 := ⟨P64 - 1, P64 - 1⟩

/-- `u128::new(lo)`: hi limb zero. -/
def u128.new (lo : Nat) : u128 := ⟨lo, 0⟩

/-- `u128::from_parts(hi, lo)`. -/
def from_parts (hi lo : Nat) : u128 := ⟨lo, hi⟩

/-- Lexicographic `<` on `(hi, lo)`, the source's `Ord::cmp` order. -/
def u128.ltb (a b : u128) : Bool :=
  a.hi < b.hi || (a.hi = b.hi && a.lo < b.lo)

/-- Lexicographic `≤` on `(hi, lo)`, the source's `Ord::cmp` order. -/
def u128.leb (a b : u128) : Bool :=
  a.hi < b.hi || (a.hi = b.hi && a.lo ≤ b.lo)

/-- `u128::wrapping_add`: limb-wise with carry propagation. -/
def u128.wrapping_add (a b : u128) : u128 :=
  let p := u64_overflowing_add a.lo b.lo
  let lo := p.1
  let carry := p.2
  let hi := u64_wrapping_add a.hi b.hi
  let hi := u64_wrapping_add hi (if carry then 1 else 0)
  from_parts hi lo

/-- `u128::wrapping_sub`: limb-wise with borrow propagation. -/
def u128.wrapping_sub (a b : u128) : u128 :=
  let p := u64_overflowing_sub a.lo b.lo
  let lo := p.1
  let borrow := p.2
  let hi := u64_wrapping_sub a.hi b.hi
  let hi := u64_wrapping_sub hi (if borrow then 1 else 0)
  from_parts hi lo

/-- `u128::overflowing_add`: wrapped sum plus the high-limb carry flag. -/
def u128.overflowing_add (a b : u128) : u128 × Bool :=
  let p := u64_overflowing_add a.lo b.lo
  let lo := p.1
  let lo_carry := p.2
  let q1 := u64_overflowing_add a.hi (if lo_carry then 1 else 0)
  let hi1 := q1.1
  let hi_carry_1 := q1.2
  let q2 := u64_overflowing_add hi1 b.hi
  let hi := q2.1
  let hi_carry_2 := q2.2
  (from_parts hi lo, hi_carry_1 || hi_carry_2)

/-- `u128::overflowing_sub`: wrapped difference plus the high-limb borrow flag. -/
def u128.overflowing_sub (a b : u128) : u128 × Bool :=
  let p := u64_overflowing_sub a.lo b.lo
  let lo := p.1
  let lo_borrow := p.2
  let q1 := u64_overflowing_sub a.hi (if lo_borrow then 1 else 0)
  let hi1 := q1.1
  let hi_borrow_1 := q1.2
  let q2 := u64_overflowing_sub hi1 b.hi
  let hi := q2.1
  let hi_borrow_2 := q2.2
  (from_parts hi lo, hi_borrow_1 || hi_borrow_2)

/-- Modelled from the spec: `checked_add` is generated by the
`forward_symmetric!` macro, which is not under `src/`; per the spec it is
`Some(result)` unless `overflowing_add` reports overflow, else absent. -/
def u128.checked_add (a b : u128) : Option u128 :=
  let p := a.overflowing_add b
  if p.2 then none else some p.1

/-- Modelled from the spec: `checked_sub` is generated by the
`forward_symmetric!` macro, which is not under `src/`; per the spec it is
`Some(result)` unless `overflowing_sub` reports overflow, else absent. -/
def u128.checked_sub (a b : u128) : Option u128 :=
  let p := a.overflowing_sub b
  if p.2 then none else some p.1

/-- `u128::saturating_add`: `checked_add(other).unwrap_or(MAX)`. -/
def u128.saturating_add (a b : u128) : u128 :=
  (a.checked_add b).getD MAX

/-- `u128::saturating_sub` (inherent method): clamp to `ZERO` when
`self <= other`, else `wrapping_sub`. -/
def u128.saturating_sub (a b : u128) : u128 :=
  if a.leb b then ZERO else a.wrapping_sub b

/-- The `Saturating` trait impl's `saturating_add`, which forwards to the
inherent `u128::saturating_add`. -/
def Saturating_saturating_add (a b : u128) : u128 :=
  u128.saturating_add a b

/-- The `Saturating` trait impl's `saturating_sub`, transcribed exactly as
written in the source: it calls `Self::saturating_add(self, other)`. -/
def Saturating_saturating_sub (a b : u128) : u128 :=
  u128.saturating_add a b

/-- `u64_long_mul`: exact 64x64 to 128 long multiplication via 32-bit
halves, portable path of the source. -/
def u64_long_mul (left right : Nat) : u128 :=
  let a := left / 4294967296
  let b := left % 4294967296
  let c := right / 4294967296
  let d := right % 4294967296
  let lo := u64_wrapping_mul b d
  let m := u64_overflowing_add (u64_wrapping_mul a d) (u64_wrapping_mul b c)
  let mid := m.1
  let carry := m.2
  let hi := u64_wrapping_add (u64_wrapping_mul a c)
    (if carry then 4294967296 else 0)
  (from_parts hi lo).wrapping_add (from_parts (mid / 4294967296) (mid * 4294967296 % P64))

/-- `u128::wrapping_mul`: `low = longmul(b, d)`, then add the cross terms
`a*d + b*c` into `low.hi`, wrapping. -/
def u128.wrapping_mul (x y : u128) : u128 :=
  let a := x.hi
  let b := x.lo
  let c := y.hi
  let d := y.lo
  let low := u64_long_mul b d
  let ad := u64_wrapping_mul a d
  let bc := u64_wrapping_mul b c
  { low with hi := u64_wrapping_add (u64_wrapping_add low.hi ad) bc }

/-- `u128::overflowing_mul`: the match on `(a, c)` selects the high-part
computation and overflow flag, then the cross terms are added into the low
product's hi limb with a second overflow flag. -/
def u128.overflowing_mul (x y : u128) : u128 × Bool :=
  let a := x.hi
  let b := x.lo
  let c := y.hi
  let d := y.lo
  let p :=
    if c = 0 then u64_overflowing_mul a d
    else if a = 0 then u64_overflowing_mul c b
    else (u64_wrapping_add (u64_wrapping_mul a d) (u64_wrapping_mul c b), true)
  let hi0 := p.1
  let hi_overflow_mul := p.2
  let low := u64_long_mul b d
  let q := u64_overflowing_add low.hi hi0
  let hi := q.1
  let hi_overflow_add := q.2
  ({ low with hi := hi }, hi_overflow_mul || hi_overflow_add)

/-- Modelled from the spec: `checked_mul` is generated by the
`forward_symmetric!` macro, which is not under `src/`; per the spec it is
`Some(result)` unless `overflowing_mul` reports overflow, else absent. -/
def u128.checked_mul (a b : u128) : Option u128 :=
  let p := a.overflowing_mul b
  if p.2 then none else some p.1

/-- `u128::saturating_mul`: `checked_mul(other).unwrap_or(MAX)`. -/
def u128.saturating_mul (a b : u128) : u128 :=
  (a.checked_mul b).getD MAX

/-- Modelled from the spec: `udivmod128` lives in `compiler_rt.rs`, not
under `src/`; per the spec the division engine returns the quotient and
remainder of the numerator by the (nonzero) denominator. -/
def udivmod128 (a b : u128) : u128 × u128 :=
  (u128.ofNat (a.toNat / b.toNat), u128.ofNat (a.toNat % b.toNat))

/-- Modelled from the spec: `udiv128` lives in `compiler_rt.rs`, not under
`src/`; it returns the quotient. -/
def udiv128 (a b : u128) : u128 :=
  u128.ofNat (a.toNat / b.toNat)

/-- Modelled from the spec: `umod128` lives in `compiler_rt.rs`, not under
`src/`; it returns the remainder. -/
def umod128 (a b : u128) : u128 :=
  u128.ofNat (a.toNat % b.toNat)

/-- `u128::checked_div`: `None` when the divisor is `ZERO`. -/
def u128.checked_div (a b : u128) : Option u128 :=
  if b = ZERO then none else some (udiv128 a b)

/-- `u128::checked_rem`: `None` when the divisor is `ZERO`. -/
def u128.checked_rem (a b : u128) : Option u128 :=
  if b = ZERO then none else some (umod128 a b)

/-- `u128::wrapping_div`: `checked_div` unwrapped; `none` models the
division-by-zero panic. -/
def u128.wrapping_div (a b : u128) : Option u128 :=
  match a.checked_div b with
  | some v => some v
  | none => none

/-- `u128::wrapping_rem`: `checked_rem` unwrapped; `none` models the
remainder-by-zero panic. -/
def u128.wrapping_rem (a b : u128) : Option u128 :=
  match a.checked_rem b with
  | some v => some v
  | none => none

/-- `u128::overflowing_div`: `(wrapping_div, false)`; `none` models the
panic propagated from `wrapping_div`. -/
def u128.overflowing_div (a b : u128) : Option (u128 × Bool) :=
  (a.wrapping_div b).map (fun v => (v, false))

/-- `u128::overflowing_rem`: `(wrapping_rem, false)`; `none` models the
panic propagated from `wrapping_rem`. -/
def u128.overflowing_rem (a b : u128) : Option (u128 × Bool) :=
  (a.wrapping_rem b).map (fun v => (v, false))

/-- The `Div` operator: delegates to `wrapping_div`. -/
def u128.div_op (a b : u128) : Option u128 :=
  a.wrapping_div b

/-- The `Rem` operator: delegates to `wrapping_rem`. -/
def u128.rem_op (a b : u128) : Option u128 :=
  a.wrapping_rem b

/-- `div_rem`: panics (`none`) on a zero denominator, otherwise delegates
to `udivmod128`. -/
def div_rem (numerator denominator : u128) : Option (u128 × u128) :=
  if denominator = ZERO then none else some (udivmod128 numerator denominator)

/-- `u128::wrapping_shl`: cross-limb left shift, shift taken mod 128. -/
def u128.wrapping_shl (x : u128) (shift : Nat) : u128 :=
  let lo := x.lo
  let hi := x.hi
  let p :=
    if shift &&& 64 ≠ 0 then
      (0, u64_wrapping_shl lo (shift &&& 63))
    else
      let new_lo := u64_wrapping_shl lo shift
      let new_hi := u64_wrapping_shl hi shift
      let new_hi :=
        if shift &&& 127 ≠ 0 then
          new_hi ||| u64_wrapping_shr lo (u32_wrapping_sub 64 shift)
        else new_hi
      (new_lo, new_hi)
  from_parts p.2 p.1

/-- `u128::wrapping_shr`: cross-limb right shift, shift taken mod 128. -/
def u128.wrapping_shr (x : u128) (shift : Nat) : u128 :=
  let lo := x.lo
  let hi := x.hi
  let p :=
    if shift &&& 64 ≠ 0 then
      (0, u64_wrapping_shr hi (shift &&& 63))
    else
      let new_hi := u64_wrapping_shr hi shift
      let new_lo := u64_wrapping_shr lo shift
      let new_lo :=
        if shift &&& 127 ≠ 0 then
          new_lo ||| u64_wrapping_shl hi (u32_wrapping_sub 64 shift)
        else new_lo
      (new_hi, new_lo)
  from_parts p.1 p.2

/-- `u128::overflowing_shl`: wrapped shift plus `other >= 128` flag. -/
def u128.overflowing_shl (x : u128) (other : Nat) : u128 × Bool :=
  (x.wrapping_shl other, decide (128 ≤ other))

/-- `u128::overflowing_shr`: wrapped shift plus `other >= 128` flag. -/
def u128.overflowing_shr (x : u128) (other : Nat) : u128 × Bool :=
  (x.wrapping_shr other, decide (128 ≤ other))

/-- Modelled from the spec: the panicking `Mul` operator is generated by
the `forward_symmetric!` macro, which is not under `src/`; per the spec the
default operators call `checked_mul` and fail (here `none`) on overflow. -/
def u128.mul_op (a b : u128) : Option u128 :=
  a.checked_mul b

/-- The loop of `u128::pow` (`impl PrimInt`): repeated squaring with
accumulator, using the panicking `*=` operator (`none` models a panic). -/
def pow_loop (exp : Nat) (base acc : u128) : Option u128 :=
  if h : 1 < exp then
    match (if exp % 2 = 1 then acc.mul_op base else some acc) with
    | none => none
    | some acc2 =>
      match base.mul_op base with
      | none => none
      | some base2 => pow_loop (exp / 2) base2 acc2
  else if exp = 1 then acc.mul_op base else some acc
termination_by exp
decreasing_by exact Nat.div_lt_self (by omega) (by omega)

/-- `u128::pow` (`impl PrimInt`): squaring loop started at `acc = ONE`. -/
def u128.pow (x : u128) (exp : Nat) : Option u128 :=
  pow_loop exp x ONE

/-- The three parse failure kinds of `ParseIntError`. Modelled from the
spec: the `error` module is not under `src/`; the spec names the kinds
Empty, InvalidDigit and Overflow. -/
inductive ParseError where
  | Empty
  | InvalidDigit
  | Overflow
deriving DecidableEq, Repr

instance : DecidableEq (Except ParseError u128) := fun a b =>
  match a, b with
  | .ok x, .ok y =>
    if h : x = y then isTrue (congrArg _ h)
    else isFalse (fun hh => h (Except.ok.inj hh))
  | .error x, .error y =>
    if h : x = y then isTrue (congrArg _ h)
    else isFalse (fun hh => h (Except.error.inj hh))
  | .ok _, .error _ => isFalse Except.noConfusion
  | .error _, .ok _ => isFalse Except.noConfusion

/-- Rust `char::to_digit(radix)`: `0`-`9` then case-insensitive letters,
accepted when the digit value is below the radix. -/
def to_digit (c : Char) (radix : Nat) : Option Nat :=
  let v : Option Nat :=
    if '0' ≤ c ∧ c ≤ '9' then some (c.toNat - '0'.toNat)
    else if 'a' ≤ c ∧ c ≤ 'z' then some (c.toNat - 'a'.toNat + 10)
    else if 'A' ≤ c ∧ c ≤ 'Z' then some (c.toNat - 'A'.toNat + 10)
    else none
  match v with
  | some d => if d < radix then some d else none
  | none => none

/-- The digit-accumulation loop of `u128::from_str_radix`: per character,
map to a digit, `checked_mul` by the radix, `checked_add` the digit. -/
def fsr_loop (radix : Nat) : List Char → u128 → Except ParseError u128
  | [], result => .ok result
  | c :: cs, result =>
    match to_digit c radix with
    | none => .error .InvalidDigit
    | some digit =>
      match result.checked_mul (u128.new radix) with
      | none => .error .Overflow
      | some int_result =>
        match int_result.checked_add (u128.new digit) with
        | none => .error .Overflow
        | some r => fsr_loop radix cs r

/-- `u128::from_str_radix`: asserts the radix is in `[2, 36]` (`none`
models the assertion panic), fails with `Empty` on a zero-length input,
then folds the characters through `fsr_loop` starting from `ZERO`. -/
def from_str_radix (src : List Char) (radix : Nat) : Option (Except ParseError u128) :=
  if radix < 2 ∨ 36 < radix then none
  else if src.length = 0 then some (.error .Empty)
  else some (fsr_loop radix src ZERO)

/-- Digit value to character, `0`-`9` then lowercase `a`-`z`. -/
def toDigitChar (d : Nat) : Char :=
  if d < 10 then Char.ofNat (48 + d) else Char.ofNat (97 + d - 10)

/-- Fuel-driven digit expansion of a `Nat` in base `r`, most significant
digit first; the fuel only needs to exceed the digit count. -/
def natToDigitsAux (r : Nat) : Nat → Nat → List Nat
  | 0, _ => []
  | f + 1, n => if n < r then [n] else natToDigitsAux r f (n / r) ++ [n % r]

/-- Digit expansion of a `Nat` in base `r`, most significant first. -/
def natToDigits (r n : Nat) : List Nat :=
  natToDigitsAux r (n + 1) n

/-- Decimal digit characters of a `Nat`, the behaviour of the native `u64`
`Display` formatting the source delegates to for single limbs. -/
def natDecChars (n : Nat) : List Char :=
  (natToDigits 10 n).map toDigitChar

/-- A `Nat` rendered in decimal and zero-padded to 19 characters, the
`format!("{:019}")` chunks of the `Display` impl. -/
def pad19 (n : Nat) : List Char :=
  let s := natDecChars n
  List.replicate (19 - s.length) '0' ++ s

/-- `impl fmt::Display for u128` with no formatting flags: single-limb
fast path, else chunks of `10^19` obtained from `div_rem`. -/
def toDecimalString (x : u128) : List Char :=
  if x.hi = 0 then natDecChars x.lo
  else
    let TEN19 : u128 := ⟨10000000000000000000, 0⟩
    match div_rem x TEN19 with
    | none => []
    | some (mid, lo) =>
      if mid.hi = 0 then natDecChars mid.lo ++ pad19 lo.lo
      else
        match div_rem mid TEN19 with
        | none => []
        | some (hi, mid2) => natDecChars hi.lo ++ pad19 mid2.lo ++ pad19 lo.lo

/-- Modelled from the spec: a general-radix formatter `format_radix` does
not exist under `src/`; per the spec's radix round-trip property it renders
`x` in base `r` with digits `0`-`9` then `a`-`z`. -/
def format_radix (x : u128) (r : Nat) : List Char :=
  (natToDigits r x.toNat).map toDigitChar

/-- Value of a digit list in base `r`, folded most significant first from
accumulator `acc`, mirroring the parse loop's accumulation. -/
def digitsVal (r acc : Nat) (ds : List Nat) : Nat :=
  ds.foldl (fun a d => a * r + d) acc

/-- Numeric value of a character list in base `r`: each character mapped
through `to_digit` (unmappable characters count as 0). -/
def charsVal (r : Nat) (cs : List Char) : Nat :=
  digitsVal r 0 (cs.map (fun c => (to_digit c r).getD 0))

/-! Helper lemmas about the representation. -/

theorem u128_toNat_lt {x : u128} (h : x.Valid) : x.toNat < P128 := by
  obtain ⟨h1, h2⟩ := h
  simp only [u128.toNat, P64, P128] at *
  omega

theorem u128_eq_of_toNat_eq {x y : u128} (hx : x.Valid) (hy : y.Valid)
    (h : x.toNat = y.toNat) : x = y := by
  obtain ⟨hx1, hx2⟩ := hx
  obtain ⟨hy1, hy2⟩ := hy
  cases x with
  | mk xlo xhi =>
    cases y with
    | mk ylo yhi =>
      simp only [u128.toNat, P64] at *
      simp only [u128.mk.injEq]
      omega

theorem u128_ofNat_valid (n : Nat) : (u128.ofNat n).Valid := by
  simp only [u128.ofNat, u128.Valid, P64]
  omega

theorem u128_toNat_ofNat {n : Nat} (h : n < P128) : (u128.ofNat n).toNat = n := by
  simp only [u128.ofNat, u128.toNat, P64, P128] at *
  omega

theorem u128_ofNat_toNat {x : u128} (h : x.Valid) : u128.ofNat x.toNat = x :=
  u128_eq_of_toNat_eq (u128_ofNat_valid _) h (u128_toNat_ofNat (u128_toNat_lt h))

theorem u128_ltb_iff {a b : u128} (ha : a.Valid) (hb : b.Valid) :
    a.ltb b = true ↔ a.toNat < b.toNat := by
  obtain ⟨ha1, ha2⟩ := ha
  obtain ⟨hb1, hb2⟩ := hb
  simp only [u128.ltb, u128.toNat, P64, Bool.or_eq_true, Bool.and_eq_true,
    decide_eq_true_eq] at *
  omega

theorem u128_leb_iff {a b : u128} (ha : a.Valid) (hb : b.Valid) :
    a.leb b = true ↔ a.toNat ≤ b.toNat := by
  obtain ⟨ha1, ha2⟩ := ha
  obtain ⟨hb1, hb2⟩ := hb
  simp only [u128.leb, u128.toNat, P64, Bool.or_eq_true, Bool.and_eq_true,
    decide_eq_true_eq] at *
  omega

theorem ZERO_valid : ZERO.Valid := by decide

theorem ONE_valid : ONE.Valid := by decide

theorem MAX_valid : MAX.Valid := by decide

theorem toNat_ZERO : ZERO.toNat = 0 := by decide

theorem toNat_ne_zero_of_ne_ZERO {b : u128} (h : b ≠ ZERO) : b.toNat ≠ 0 := by
  intro hn
  apply h
  cases b with
  | mk blo bhi =>
    simp only [u128.toNat, P64] at hn
    simp only [ZERO, u128.mk.injEq]
    omega

/-! Helper lemmas for the additive core. -/

theorem wrapping_add_spec (a b : u128) (ha : a.Valid) (hb : b.Valid) :
    (a.wrapping_add b).toNat = (a.toNat + b.toNat) % P128 ∧
    (a.wrapping_add b).Valid := by
  obtain ⟨ha1, ha2⟩ := ha
  obtain ⟨hb1, hb2⟩ := hb
  simp only [u128.wrapping_add, u64_overflowing_add, u64_wrapping_add,
    from_parts, u128.toNat, u128.Valid, decide_eq_true_eq, P64, P128] at *
  split_ifs with hc
  · constructor
    · omega
    · constructor <;> omega
  · constructor
    · omega
    · constructor <;> omega

theorem overflowing_add_spec (a b : u128) (ha : a.Valid) (hb : b.Valid) :
    (a.overflowing_add b).1.toNat = (a.toNat + b.toNat) % P128 ∧
    (a.overflowing_add b).1.Valid ∧
    ((a.overflowing_add b).2 = true ↔ P128 ≤ a.toNat + b.toNat) := by
  obtain ⟨ha1, ha2⟩ := ha
  obtain ⟨hb1, hb2⟩ := hb
  simp only [u128.overflowing_add, u64_overflowing_add, from_parts,
    u128.toNat, u128.Valid, decide_eq_true_eq, Bool.or_eq_true, P64, P128] at *
  split_ifs with hc
  · refine ⟨by omega, ⟨by omega, by omega⟩, ?_⟩
    constructor
    · rintro (h | h) <;> omega
    · intro h
      omega
  · refine ⟨by omega, ⟨by omega, by omega⟩, ?_⟩
    constructor
    · rintro (h | h) <;> omega
    · intro h
      omega

theorem checked_add_spec (a b : u128) (ha : a.Valid) (hb : b.Valid) :
    a.checked_add b =
      if P128 ≤ a.toNat + b.toNat then none else some (a.overflowing_add b).1 := by
  obtain ⟨h1, h2, h3⟩ := overflowing_add_spec a b ha hb
  by_cases hc : P128 ≤ a.toNat + b.toNat
  · simp [u128.checked_add, h3.mpr hc, hc]
  · have hf : (a.overflowing_add b).2 = false := by
      cases hfl : (a.overflowing_add b).2
      · rfl
      · exact absurd (h3.mp hfl) hc
    simp [u128.checked_add, hf, hc]

/-- C1: the claim says `saturating_sub` clamps to `ZERO` when `a < b` and
returns the exact difference otherwise, both for the inherent method and
for the `Saturating` trait interface. The trait impl instead calls
`Self::saturating_add`: at `a = b = ONE` it returns 2 where the documented
contract (and the inherent method) give `ZERO`. -/
theorem C1_trait_saturating_sub_adds :
    Saturating_saturating_sub ONE ONE = from_parts 0 2 ∧
    u128.saturating_sub ONE ONE = ZERO ∧
    Saturating_saturating_sub ONE ONE ≠ ZERO := by
  refine ⟨by decide, by decide, by decide⟩

/-- C2: `overflowing_add` returns the sum reduced modulo `2^128` together
with a flag that is set exactly when the true sum reaches `2^128` (so a
low-limb carry alone never sets it), and `checked_add` is `some` of the
wrapped sum exactly when the flag is clear, `none` otherwise. -/
theorem C2_overflowing_checked_add (a b : u128) (ha : a.Valid) (hb : b.Valid) :
    (a.overflowing_add b).1.toNat = (a.toNat + b.toNat) % P128 ∧
    ((a.overflowing_add b).2 = true ↔ P128 ≤ a.toNat + b.toNat) ∧
    ((a.overflowing_add b).2 = false → a.checked_add b = some (a.overflowing_add b).1) ∧
    ((a.overflowing_add b).2 = true → a.checked_add b = none) := by
  obtain ⟨h1, h2, h3⟩ := overflowing_add_spec a b ha hb
  refine ⟨h1, h3, ?_, ?_⟩
  · intro hf
    simp [u128.checked_add, hf]
  · intro hf
    simp [u128.checked_add, hf]

/-- Witness for C2 at `a = MAX`, `b = ONE`. -/
theorem C2_overflowing_checked_add_witness :
    (MAX.overflowing_add ONE).1.toNat = (MAX.toNat + ONE.toNat) % P128 ∧
    ((MAX.overflowing_add ONE).2 = true ↔ P128 ≤ MAX.toNat + ONE.toNat) ∧
    ((MAX.overflowing_add ONE).2 = false → MAX.checked_add ONE = some (MAX.overflowing_add ONE).1) ∧
    ((MAX.overflowing_add ONE).2 = true → MAX.checked_add ONE = none) :=
  C2_overflowing_checked_add MAX ONE (by decide) (by decide)

/-! Helper lemmas for the multiplicative core. -/

theorem u64_long_mul_spec (l r : Nat) (hl : l < P64) (hr : r < P64) :
    (u64_long_mul l r).toNat = l * r ∧ (u64_long_mul l r).Valid := by
  simp only [P64] at hl hr
  obtain ⟨A, B, rfl, hA, hB⟩ :
      ∃ A B, l = A * 4294967296 + B ∧ A < 4294967296 ∧ B < 4294967296 :=
    ⟨l / 4294967296, l % 4294967296, by omega, by omega, by omega⟩
  obtain ⟨C, D, rfl, hC, hD⟩ :
      ∃ C D, r = C * 4294967296 + D ∧ C < 4294967296 ∧ D < 4294967296 :=
    ⟨r / 4294967296, r % 4294967296, by omega, by omega, by omega⟩
  simp only [u64_long_mul, u64_wrapping_mul, u64_overflowing_add,
    u64_wrapping_add, u128.wrapping_add, from_parts, u128.toNat, u128.Valid,
    decide_eq_true_eq, P64, P128]
  have e1 : (A * 4294967296 + B) / 4294967296 = A := by omega
  have e2 : (A * 4294967296 + B) % 4294967296 = B := by omega
  have e3 : (C * 4294967296 + D) / 4294967296 = C := by omega
  have e4 : (C * 4294967296 + D) % 4294967296 = D := by omega
  rw [e1, e2, e3, e4]
  have hBD : B * D ≤ 4294967295 * 4294967295 := Nat.mul_le_mul (by omega) (by omega)
  have hAD : A * D ≤ 4294967295 * 4294967295 := Nat.mul_le_mul (by omega) (by omega)
  have hBC : B * C ≤ 4294967295 * 4294967295 := Nat.mul_le_mul (by omega) (by omega)
  have hAC : A * C ≤ 4294967295 * 4294967295 := Nat.mul_le_mul (by omega) (by omega)
  have hexp : (A * 4294967296 + B) * (C * 4294967296 + D)
      = A * C * 18446744073709551616 + (A * D + B * C) * 4294967296 + B * D := by
    ring
  rw [hexp]
  generalize hg1 : A * C = AC at *
  generalize hg2 : A * D = AD at *
  generalize hg3 : B * C = BC at *
  generalize hg4 : B * D = BD at *
  norm_num at hBD hAD hBC hAC
  split_ifs <;> constructor <;> omega

theorem wrapping_mul_spec (x y : u128) (hx : x.Valid) (hy : y.Valid) :
    (x.wrapping_mul y).toNat = x.toNat * y.toNat % P128 ∧
    (x.wrapping_mul y).Valid := by
  obtain ⟨hx1, hx2⟩ := hx
  obtain ⟨hy1, hy2⟩ := hy
  obtain ⟨Hval, Hv1, Hv2⟩ := u64_long_mul_spec x.lo y.lo hx1 hy1
  simp only [u128.wrapping_mul, u64_wrapping_mul, u64_wrapping_add,
    u128.toNat, u128.Valid, P64, P128] at *
  have hexp : (x.hi * 18446744073709551616 + x.lo) * (y.hi * 18446744073709551616 + y.lo)
      = x.hi * y.hi * (18446744073709551616 * 18446744073709551616)
        + (x.hi * y.lo + x.lo * y.hi) * 18446744073709551616 + x.lo * y.lo := by
    ring
  rw [hexp]
  generalize hg1 : x.hi * y.hi = AC at *
  generalize hg2 : x.hi * y.lo = AD at *
  generalize hg3 : x.lo * y.hi = BC at *
  generalize hg4 : x.lo * y.lo = BD at *
  generalize hg5 : (u64_long_mul x.lo y.lo).lo = L1 at *
  generalize hg6 : (u64_long_mul x.lo y.lo).hi = L2 at *
  constructor
  · omega
  · constructor <;> omega

theorem overflowing_mul_spec (x y : u128) (hx : x.Valid) (hy : y.Valid) :
    (x.overflowing_mul y).1.toNat = x.toNat * y.toNat % P128 ∧
    (x.overflowing_mul y).1.Valid ∧
    ((x.overflowing_mul y).2 = true ↔ P128 ≤ x.toNat * y.toNat) := by
  obtain ⟨hx1, hx2⟩ := hx
  obtain ⟨hy1, hy2⟩ := hy
  obtain ⟨Hval, Hv1, Hv2⟩ := u64_long_mul_spec x.lo y.lo hx1 hy1
  simp only [u128.overflowing_mul, u64_wrapping_mul, u64_wrapping_add,
    u64_overflowing_mul, u64_overflowing_add, u128.toNat, u128.Valid,
    decide_eq_true_eq, Bool.or_eq_true, P64, P128] at *
  have hexp : (x.hi * 18446744073709551616 + x.lo) * (y.hi * 18446744073709551616 + y.lo)
      = x.hi * y.hi * (18446744073709551616 * 18446744073709551616)
        + (x.hi * y.lo + x.lo * y.hi) * 18446744073709551616 + x.lo * y.lo := by
    ring
  rw [hexp]
  have hADle : x.hi * y.lo ≤ 18446744073709551615 * 18446744073709551615 :=
    Nat.mul_le_mul (by omega) (by omega)
  have hBCle : x.lo * y.hi ≤ 18446744073709551615 * 18446744073709551615 :=
    Nat.mul_le_mul (by omega) (by omega)
  have hACpos : x.hi ≠ 0 → y.hi ≠ 0 → 1 ≤ x.hi * y.hi :=
    fun h1 h2 => Nat.one_le_iff_ne_zero.mpr (Nat.mul_ne_zero h1 h2)
  by_cases hc : y.hi = 0
  · simp only [hc, if_true, eq_self_iff_true, Bool.or_eq_true, decide_eq_true_eq]
    generalize hg2 : x.hi * y.lo = AD at *
    generalize hg4 : x.lo * y.lo = BD at *
    generalize hg5 : (u64_long_mul x.lo y.lo).lo = L1 at *
    generalize hg6 : (u64_long_mul x.lo y.lo).hi = L2 at *
    norm_num at hADle
    refine ⟨by omega, ⟨by omega, by omega⟩, ?_⟩
    constructor
    · rintro (h | h) <;> omega
    · intro h
      omega
  · by_cases ha : x.hi = 0
    · simp only [hc, ha, if_false, if_true, eq_self_iff_true, Bool.or_eq_true,
        decide_eq_true_eq]
      have hcomm : y.hi * x.lo = x.lo * y.hi := Nat.mul_comm _ _
      generalize hg3 : x.lo * y.hi = BC at *
      generalize hg3b : y.hi * x.lo = BC2 at *
      generalize hg4 : x.lo * y.lo = BD at *
      generalize hg5 : (u64_long_mul x.lo y.lo).lo = L1 at *
      generalize hg6 : (u64_long_mul x.lo y.lo).hi = L2 at *
      norm_num at hBCle
      refine ⟨by omega, ⟨by omega, by omega⟩, ?_⟩
      constructor
      · rintro (h | h) <;> omega
      · intro h
        omega
    · simp only [hc, ha, if_false]
      have hge : 18446744073709551616 * 18446744073709551616
          ≤ x.hi * y.hi * (18446744073709551616 * 18446744073709551616) := by
        have := hACpos ha hc
        calc 18446744073709551616 * 18446744073709551616
            = 1 * (18446744073709551616 * 18446744073709551616) := by ring
          _ ≤ x.hi * y.hi * (18446744073709551616 * 18446744073709551616) :=
            Nat.mul_le_mul_right _ this
      have hcomm : y.hi * x.lo = x.lo * y.hi := Nat.mul_comm _ _
      generalize hg1 : x.hi * y.hi = AC at *
      generalize hg2 : x.hi * y.lo = AD at *
      generalize hg3 : x.lo * y.hi = BC at *
      generalize hg3b : y.hi * x.lo = BC2 at *
      generalize hg4 : x.lo * y.lo = BD at *
      generalize hg5 : (u64_long_mul x.lo y.lo).lo = L1 at *
      generalize hg6 : (u64_long_mul x.lo y.lo).hi = L2 at *
      refine ⟨by omega, ⟨by omega, by omega⟩, ?_⟩
      simp only [true_or, true_iff]
      omega

theorem checked_mul_spec (a b : u128) (ha : a.Valid) (hb : b.Valid) :
    a.checked_mul b =
      if P128 ≤ a.toNat * b.toNat then none else some (a.overflowing_mul b).1 := by
  obtain ⟨h1, h2, h3⟩ := overflowing_mul_spec a b ha hb
  by_cases hc : P128 ≤ a.toNat * b.toNat
  · simp [u128.checked_mul, h3.mpr hc, hc]
  · have hf : (a.overflowing_mul b).2 = false := by
      cases hfl : (a.overflowing_mul b).2
      · rfl
      · exact absurd (h3.mp hfl) hc
    simp [u128.checked_mul, hf, hc]

/-- C3: `overflowing_mul` returns the product reduced modulo `2^128`
together with a flag that is set exactly when the true product reaches
`2^128`; in particular when both high limbs are nonzero the flag is set
and the wrapped low 128 bits are still returned. -/
theorem C3_overflowing_mul (a b : u128) (ha : a.Valid) (hb : b.Valid) :
    (a.overflowing_mul b).1.toNat = a.toNat * b.toNat % P128 ∧
    ((a.overflowing_mul b).2 = true ↔ P128 ≤ a.toNat * b.toNat) ∧
    (a.hi ≠ 0 → b.hi ≠ 0 →
      (a.overflowing_mul b).2 = true ∧
      (a.overflowing_mul b).1.toNat = a.toNat * b.toNat % P128) := by
  obtain ⟨h1, h2, h3⟩ := overflowing_mul_spec a b ha hb
  refine ⟨h1, h3, fun hha hhb => ⟨?_, h1⟩⟩
  apply h3.mpr
  obtain ⟨ha1, ha2⟩ := ha
  obtain ⟨hb1, hb2⟩ := hb
  have h64a : P64 ≤ a.toNat := by
    simp only [u128.toNat, P64] at *
    omega
  have h64b : P64 ≤ b.toNat := by
    simp only [u128.toNat, P64] at *
    omega
  calc P128 = P64 * P64 := by decide
    _ ≤ a.toNat * b.toNat := Nat.mul_le_mul h64a h64b

/-- Witness for C3 at two values with nonzero high limbs. -/
theorem C3_overflowing_mul_witness :
    ((from_parts 1 0).overflowing_mul (from_parts 1 0)).1.toNat
        = (from_parts 1 0).toNat * (from_parts 1 0).toNat % P128 ∧
    (((from_parts 1 0).overflowing_mul (from_parts 1 0)).2 = true ↔
        P128 ≤ (from_parts 1 0).toNat * (from_parts 1 0).toNat) ∧
    ((from_parts 1 0).hi ≠ 0 → (from_parts 1 0).hi ≠ 0 →
      ((from_parts 1 0).overflowing_mul (from_parts 1 0)).2 = true ∧
      ((from_parts 1 0).overflowing_mul (from_parts 1 0)).1.toNat
        = (from_parts 1 0).toNat * (from_parts 1 0).toNat % P128) :=
  C3_overflowing_mul (from_parts 1 0) (from_parts 1 0) (by decide) (by decide)

/-- C4: for nonzero `b`, `div_rem` returns `(q, r)` with
`q.wrapping_mul(b).wrapping_add(r) == a` and `r < b`. -/
theorem C4_div_rem_identity (a b : u128) (ha : a.Valid) (hb : b.Valid)
    (hnz : b ≠ ZERO) :
    ∃ q r, div_rem a b = some (q, r) ∧
      (q.wrapping_mul b).wrapping_add r = a ∧
      r.ltb b = true := by
  have hb0 : b.toNat ≠ 0 := toNat_ne_zero_of_ne_ZERO hnz
  refine ⟨u128.ofNat (a.toNat / b.toNat), u128.ofNat (a.toNat % b.toNat), ?_, ?_, ?_⟩
  · simp [div_rem, hnz, udivmod128]
  · have hqv : (u128.ofNat (a.toNat / b.toNat)).Valid := u128_ofNat_valid _
    have hrv : (u128.ofNat (a.toNat % b.toNat)).Valid := u128_ofNat_valid _
    have hq : (u128.ofNat (a.toNat / b.toNat)).toNat = a.toNat / b.toNat :=
      u128_toNat_ofNat (lt_of_le_of_lt (Nat.div_le_self _ _) (u128_toNat_lt ha))
    have hr : (u128.ofNat (a.toNat % b.toNat)).toNat = a.toNat % b.toNat :=
      u128_toNat_ofNat (lt_of_le_of_lt (Nat.mod_le _ _) (u128_toNat_lt ha))
    obtain ⟨hm1, hm2⟩ := wrapping_mul_spec _ b hqv hb
    obtain ⟨hs1, hs2⟩ := wrapping_add_spec _ _ hm2 hrv
    apply u128_eq_of_toNat_eq hs2 ha
    rw [hs1, hm1, hq, hr]
    have hid : a.toNat / b.toNat * b.toNat + a.toNat % b.toNat = a.toNat := by
      rw [Nat.mul_comm]
      exact Nat.div_add_mod _ _
    have halt : a.toNat < P128 := u128_toNat_lt ha
    have hmlt : a.toNat % b.toNat ≤ a.toNat := Nat.mod_le _ _
    simp only [P128] at *
    omega
  · have hrv : (u128.ofNat (a.toNat % b.toNat)).Valid := u128_ofNat_valid _
    have hr : (u128.ofNat (a.toNat % b.toNat)).toNat = a.toNat % b.toNat :=
      u128_toNat_ofNat (lt_of_le_of_lt (Nat.mod_le _ _) (u128_toNat_lt ha))
    rw [u128_ltb_iff hrv hb, hr]
    exact Nat.mod_lt _ (Nat.pos_of_ne_zero hb0)

/-- Witness for C4 at `a = MAX`, `b = from_parts(3, 5)`. -/
theorem C4_div_rem_identity_witness :
    ∃ q r, div_rem MAX (from_parts 3 5) = some (q, r) ∧
      (q.wrapping_mul (from_parts 3 5)).wrapping_add r = MAX ∧
      r.ltb (from_parts 3 5) = true :=
  C4_div_rem_identity MAX (from_parts 3 5) (by decide) (by decide) (by decide)

/-- C5: checked division and remainder return `none` exactly on a zero
divisor and `some` of the quotient / remainder otherwise, and the wrapping
forms (and the `/` and `%` operators that delegate to them) panic
(`none`) exactly on a zero divisor. -/
theorem C5_division_by_zero (a b : u128) (hnz : b ≠ ZERO) :
    a.checked_div ZERO = none ∧
    a.checked_rem ZERO = none ∧
    a.checked_div b = some (udiv128 a b) ∧
    a.checked_rem b = some (umod128 a b) ∧
    a.wrapping_div ZERO = none ∧
    a.wrapping_rem ZERO = none ∧
    a.wrapping_div b = some (udiv128 a b) ∧
    a.wrapping_rem b = some (umod128 a b) ∧
    a.div_op ZERO = none ∧
    a.rem_op ZERO = none ∧
    a.div_op b = some (udiv128 a b) ∧
    a.rem_op b = some (umod128 a b) := by
  simp [u128.checked_div, u128.checked_rem, u128.wrapping_div,
    u128.wrapping_rem, u128.div_op, u128.rem_op, hnz]

/-- Witness for C5 at `a = ONE`, `b = from_parts(0, 2)`. -/
theorem C5_division_by_zero_witness :
    ONE.checked_div ZERO = none ∧
    ONE.checked_rem ZERO = none ∧
    ONE.checked_div (from_parts 0 2) = some (udiv128 ONE (from_parts 0 2)) ∧
    ONE.checked_rem (from_parts 0 2) = some (umod128 ONE (from_parts 0 2)) ∧
    ONE.wrapping_div ZERO = none ∧
    ONE.wrapping_rem ZERO = none ∧
    ONE.wrapping_div (from_parts 0 2) = some (udiv128 ONE (from_parts 0 2)) ∧
    ONE.wrapping_rem (from_parts 0 2) = some (umod128 ONE (from_parts 0 2)) ∧
    ONE.div_op ZERO = none ∧
    ONE.rem_op ZERO = none ∧
    ONE.div_op (from_parts 0 2) = some (udiv128 ONE (from_parts 0 2)) ∧
    ONE.rem_op (from_parts 0 2) = some (umod128 ONE (from_parts 0 2)) :=
  C5_division_by_zero ONE (from_parts 0 2) (by decide)

/-- C6 counterexample: the claim quantifies over every divisor, but at
divisor `ZERO` `overflowing_div` and `overflowing_rem` panic instead of
returning a pair whose boolean component is `false`. -/
theorem C6_counterexample :
    ONE.overflowing_div ZERO = none ∧ ONE.overflowing_rem ZERO = none := by
  refine ⟨by decide, by decide⟩

/-- C6 amended: for every dividend and every nonzero divisor,
`overflowing_div` / `overflowing_rem` return the ordinary quotient /
remainder paired with `false`; at divisor `ZERO` they panic. -/
theorem C6_overflowing_div_rem_amended (a b : u128) (hnz : b ≠ ZERO) :
    a.overflowing_div b = some (udiv128 a b, false) ∧
    a.overflowing_rem b = some (umod128 a b, false) ∧
    a.overflowing_div ZERO = none ∧
    a.overflowing_rem ZERO = none := by
  simp [u128.overflowing_div, u128.overflowing_rem, u128.wrapping_div,
    u128.wrapping_rem, u128.checked_div, u128.checked_rem, hnz]

/-- Witness for the amended C6 at `a = ONE`, `b = from_parts(0, 2)`. -/
theorem C6_overflowing_div_rem_amended_witness :
    ONE.overflowing_div (from_parts 0 2) = some (udiv128 ONE (from_parts 0 2), false) ∧
    ONE.overflowing_rem (from_parts 0 2) = some (umod128 ONE (from_parts 0 2), false) ∧
    ONE.overflowing_div ZERO = none ∧
    ONE.overflowing_rem ZERO = none :=
  C6_overflowing_div_rem_amended ONE (from_parts 0 2) (by decide)

/-! Helper lemmas for the shift core. -/

theorem and63_eq_mod (n : Nat) : n &&& 63 = n % 64 := by
  have h := Nat.and_pow_two_sub_one_eq_mod n 6
  norm_num at h
  exact h

theorem and127_eq_mod (n : Nat) : n &&& 127 = n % 128 := by
  have h := Nat.and_pow_two_sub_one_eq_mod n 7
  norm_num at h
  exact h

theorem and64_mod128 (n : Nat) : n % 128 &&& 64 = n &&& 64 := by
  have h1 := Nat.and_two_pow n 6
  have h2 := Nat.and_two_pow (n % 128) 6
  norm_num at h1 h2
  rw [h1, h2]
  have e1 : Nat.testBit n 6 = decide (n / 2 ^ 6 % 2 = 1) := Nat.testBit_to_div_mod
  have e2 : Nat.testBit (n % 128) 6 = decide (n % 128 / 2 ^ 6 % 2 = 1) :=
    Nat.testBit_to_div_mod
  have e3 : n % 128 / 2 ^ 6 % 2 = n / 2 ^ 6 % 2 := by
    norm_num
    omega
  rw [e1, e2, e3]

theorem wrapping_shl_mod (x : u128) (n : Nat) (hn : n < P32) :
    x.wrapping_shl n = x.wrapping_shl (n % 128) := by
  simp only [u128.wrapping_shl, u64_wrapping_shl, u64_wrapping_shr,
    u32_wrapping_sub, P32, P64] at *
  rw [and64_mod128, and63_eq_mod, and63_eq_mod, and127_eq_mod, and127_eq_mod]
  rw [show n % 128 % 64 = n % 64 from by omega]
  rw [show n % 128 % 128 = n % 128 from by omega]
  rw [show (64 + 4294967296 - n % 128) % 4294967296 % 64
      = (64 + 4294967296 - n) % 4294967296 % 64 from by omega]

theorem wrapping_shr_mod (x : u128) (n : Nat) (hn : n < P32) :
    x.wrapping_shr n = x.wrapping_shr (n % 128) := by
  simp only [u128.wrapping_shr, u64_wrapping_shl, u64_wrapping_shr,
    u32_wrapping_sub, P32, P64] at *
  rw [and64_mod128, and63_eq_mod, and63_eq_mod, and127_eq_mod, and127_eq_mod]
  rw [show n % 128 % 64 = n % 64 from by omega]
  rw [show n % 128 % 128 = n % 128 from by omega]
  rw [show (64 + 4294967296 - n % 128) % 4294967296 % 64
      = (64 + 4294967296 - n) % 4294967296 % 64 from by omega]

theorem wrapping_shl_zero (x : u128) (hx : x.Valid) : x.wrapping_shl 0 = x := by
  obtain ⟨h1, h2⟩ := hx
  cases x with
  | mk xlo xhi =>
    simp only [u128.Valid, P64] at h1 h2
    simp only [u128.wrapping_shl, u64_wrapping_shl, u64_wrapping_shr,
      u32_wrapping_sub, from_parts, P32, P64]
    norm_num
    try simp only [u128.mk.injEq]
    all_goals omega

theorem wrapping_shr_zero (x : u128) (hx : x.Valid) : x.wrapping_shr 0 = x := by
  obtain ⟨h1, h2⟩ := hx
  cases x with
  | mk xlo xhi =>
    simp only [u128.Valid, P64] at h1 h2
    simp only [u128.wrapping_shr, u64_wrapping_shl, u64_wrapping_shr,
      u32_wrapping_sub, from_parts, P32, P64]
    norm_num

/-- C7: shifts are periodic with period 128 (`wrapping_shl n` equals
`wrapping_shl (n % 128)`, likewise right shifts), a shift by 0 is the
identity, and the overflowing shifts return the wrapped shift with a flag
set exactly when the requested amount is at least 128. -/
theorem C7_shift_properties (x : u128) (n : Nat) (hx : x.Valid) (hn : n < P32) :
    x.wrapping_shl n = x.wrapping_shl (n % 128) ∧
    x.wrapping_shr n = x.wrapping_shr (n % 128) ∧
    x.wrapping_shl 0 = x ∧
    x.wrapping_shr 0 = x ∧
    (x.overflowing_shl n).1 = x.wrapping_shl n ∧
    ((x.overflowing_shl n).2 = true ↔ 128 ≤ n) ∧
    (x.overflowing_shr n).1 = x.wrapping_shr n ∧
    ((x.overflowing_shr n).2 = true ↔ 128 ≤ n) := by
  refine ⟨wrapping_shl_mod x n hn, wrapping_shr_mod x n hn,
    wrapping_shl_zero x hx, wrapping_shr_zero x hx, rfl, ?_, rfl, ?_⟩
  · simp [u128.overflowing_shl]
  · simp [u128.overflowing_shr]

/-- Witness for C7 at `x = from_parts(3, 5)`, `n = 130`. -/
theorem C7_shift_properties_witness :
    (from_parts 3 5).wrapping_shl 130 = (from_parts 3 5).wrapping_shl (130 % 128) ∧
    (from_parts 3 5).wrapping_shr 130 = (from_parts 3 5).wrapping_shr (130 % 128) ∧
    (from_parts 3 5).wrapping_shl 0 = from_parts 3 5 ∧
    (from_parts 3 5).wrapping_shr 0 = from_parts 3 5 ∧
    ((from_parts 3 5).overflowing_shl 130).1 = (from_parts 3 5).wrapping_shl 130 ∧
    (((from_parts 3 5).overflowing_shl 130).2 = true ↔ 128 ≤ 130) ∧
    ((from_parts 3 5).overflowing_shr 130).1 = (from_parts 3 5).wrapping_shr 130 ∧
    (((from_parts 3 5).overflowing_shr 130).2 = true ↔ 128 ≤ 130) :=
  C7_shift_properties (from_parts 3 5) 130 (by decide) (by decide)

/-- C10: `pow` with exponent 0 returns `ONE` for every base — the squaring
loop starts from the accumulator `ONE` and never multiplies when the
exponent is 0 — including the edge case `ZERO.pow(0) == ONE`. -/
theorem C10_pow_zero_exponent (x : u128) :
    x.pow 0 = some ONE ∧ ZERO.pow 0 = some ONE := by
  constructor <;> simp [u128.pow, pow_loop]

/-! Helper lemmas for radix conversion. -/

theorem digitsVal_nil (r acc : Nat) : digitsVal r acc [] = acc := rfl

theorem digitsVal_cons (r acc d : Nat) (ds : List Nat) :
    digitsVal r acc (d :: ds) = digitsVal r (acc * r + d) ds := rfl

theorem digitsVal_append (r acc : Nat) (ds1 ds2 : List Nat) :
    digitsVal r acc (ds1 ++ ds2) = digitsVal r (digitsVal r acc ds1) ds2 := by
  simp [digitsVal, List.foldl_append]

theorem digitsVal_ge (r : Nat) (hr : 1 ≤ r) (ds : List Nat) (acc : Nat) :
    acc ≤ digitsVal r acc ds := by
  induction ds generalizing acc with
  | nil => simp [digitsVal_nil]
  | cons d ds ih =>
    rw [digitsVal_cons]
    calc acc = acc * 1 := by ring
      _ ≤ acc * r + d := by
        have := Nat.mul_le_mul_left acc hr
        omega
      _ ≤ digitsVal r (acc * r + d) ds := ih _

theorem digitsVal_acc (r : Nat) (ds : List Nat) (acc : Nat) :
    digitsVal r acc ds = acc * r ^ ds.length + digitsVal r 0 ds := by
  induction ds generalizing acc with
  | nil => simp [digitsVal_nil]
  | cons d ds ih =>
    rw [digitsVal_cons, digitsVal_cons, ih (acc * r + d), ih (0 * r + d)]
    simp only [List.length_cons, pow_succ]
    ring

theorem digitsVal_replicate_zero (r k : Nat) :
    digitsVal r 0 (List.replicate k 0) = 0 := by
  induction k with
  | zero => rfl
  | succ k ih =>
    rw [List.replicate_succ, digitsVal_cons]
    simpa using ih

theorem natToDigitsAux_spec (r : Nat) (hr : 2 ≤ r) :
    ∀ fuel n, n < fuel →
      digitsVal r 0 (natToDigitsAux r fuel n) = n ∧
      natToDigitsAux r fuel n ≠ [] ∧
      ∀ d ∈ natToDigitsAux r fuel n, d < r := by
  intro fuel
  induction fuel with
  | zero => omega
  | succ f ih =>
    intro n hn
    by_cases hnr : n < r
    · simp only [natToDigitsAux, if_pos hnr]
      refine ⟨by simp [digitsVal_cons, digitsVal_nil], by simp, ?_⟩
      intro d hd
      simp at hd
      omega
    · have hdiv : n / r < f := by
        have h1 : n / r < n := Nat.div_lt_self (by omega) (by omega)
        omega
      obtain ⟨ihv, ihne, ihd⟩ := ih (n / r) hdiv
      simp only [natToDigitsAux, if_neg hnr]
      refine ⟨?_, by simp, ?_⟩
      · rw [digitsVal_append, ihv, digitsVal_cons, digitsVal_nil]
        have hdm : n / r * r + n % r = n := by
          rw [Nat.mul_comm]
          exact Nat.div_add_mod n r
        omega
      · intro d hd
        simp at hd
        rcases hd with hd | hd
        · exact ihd d hd
        · subst hd
          exact Nat.mod_lt _ (by omega)

theorem natToDigits_spec (r n : Nat) (hr : 2 ≤ r) :
    digitsVal r 0 (natToDigits r n) = n ∧
    natToDigits r n ≠ [] ∧
    ∀ d ∈ natToDigits r n, d < r :=
  natToDigitsAux_spec r hr (n + 1) n (Nat.lt_succ_self n)

theorem natToDigitsAux_len (r : Nat) (hr : 2 ≤ r) :
    ∀ fuel n k, n < fuel → 1 ≤ k → n < r ^ k →
      (natToDigitsAux r fuel n).length ≤ k := by
  intro fuel
  induction fuel with
  | zero => omega
  | succ f ih =>
    intro n k hn hk hnk
    by_cases hnr : n < r
    · simp [natToDigitsAux, if_pos hnr]
      omega
    · have hk2 : 2 ≤ k := by
        by_contra hcon
        have hk1 : k = 1 := by omega
        subst hk1
        simp at hnk
        omega
      have hdiv : n / r < f := by
        have h1 : n / r < n := Nat.div_lt_self (by omega) (by omega)
        omega
      have hdk : n / r < r ^ (k - 1) := by
        have hrpos : 0 < r := by omega
        rw [Nat.div_lt_iff_lt_mul hrpos]
        have : r ^ (k - 1) * r = r ^ k := by
          rw [← pow_succ]
          congr 1
          omega
        omega
      have := ih (n / r) (k - 1) hdiv (by omega) hdk
      simp only [natToDigitsAux, if_neg hnr, List.length_append,
        List.length_cons, List.length_nil]
      omega

theorem natToDigits_len (r n k : Nat) (hr : 2 ≤ r) (hk : 1 ≤ k)
    (hnk : n < r ^ k) : (natToDigits r n).length ≤ k :=
  natToDigitsAux_len r hr (n + 1) n k (Nat.lt_succ_self n) hk hnk

theorem new_valid {n : Nat} (h : n < P64) : (u128.new n).Valid := by
  simp only [u128.new, u128.Valid]
  simp only [P64] at *
  omega

theorem new_toNat (n : Nat) : (u128.new n).toNat = n := by
  simp [u128.new, u128.toNat]

theorem to_digit_lt {c : Char} {r d : Nat} (h : to_digit c r = some d) : d < r := by
  simp only [to_digit] at h
  split at h
  · split at h
    · simp at h
      omega
    · simp at h
  · simp at h

theorem fsr_step_ok (acc : u128) (r d : Nat) (hacc : acc.Valid)
    (hr36 : r ≤ 36) (hd36 : d ≤ 36) (hlt : acc.toNat * r + d < P128) :
    ∃ m acc2, acc.checked_mul (u128.new r) = some m ∧
      m.checked_add (u128.new d) = some acc2 ∧
      acc2.Valid ∧ acc2.toNat = acc.toNat * r + d := by
  have hrv : (u128.new r).Valid := new_valid (by simp only [P64]; omega)
  have hdv : (u128.new d).Valid := new_valid (by simp only [P64]; omega)
  obtain ⟨hm1, hm2, _⟩ := overflowing_mul_spec acc (u128.new r) hacc hrv
  rw [new_toNat] at hm1
  have hmod : acc.toNat * r % P128 = acc.toNat * r := Nat.mod_eq_of_lt (by omega)
  rw [hmod] at hm1
  obtain ⟨ha1, ha2, _⟩ := overflowing_add_spec (acc.overflowing_mul (u128.new r)).1
    (u128.new d) hm2 hdv
  rw [new_toNat, hm1] at ha1
  have hmod2 : (acc.toNat * r + d) % P128 = acc.toNat * r + d := Nat.mod_eq_of_lt hlt
  rw [hmod2] at ha1
  refine ⟨(acc.overflowing_mul (u128.new r)).1,
    ((acc.overflowing_mul (u128.new r)).1.overflowing_add (u128.new d)).1, ?_, ?_, ha2, ha1⟩
  · rw [checked_mul_spec acc (u128.new r) hacc hrv, new_toNat, if_neg (by omega)]
  · rw [checked_add_spec _ (u128.new d) hm2 hdv, new_toNat, hm1, if_neg (by omega)]

theorem fsr_step_mul_overflow (acc : u128) (r : Nat) (hacc : acc.Valid)
    (hr36 : r ≤ 36) (hge : P128 ≤ acc.toNat * r) :
    acc.checked_mul (u128.new r) = none := by
  have hrv : (u128.new r).Valid := new_valid (by simp only [P64]; omega)
  rw [checked_mul_spec acc (u128.new r) hacc hrv, new_toNat, if_pos hge]

theorem fsr_step_add_overflow (acc : u128) (r d : Nat) (hacc : acc.Valid)
    (hr36 : r ≤ 36) (hd36 : d ≤ 36) (hlt : acc.toNat * r < P128)
    (hge : P128 ≤ acc.toNat * r + d) :
    ∃ m, acc.checked_mul (u128.new r) = some m ∧
      m.checked_add (u128.new d) = none := by
  have hrv : (u128.new r).Valid := new_valid (by simp only [P64]; omega)
  have hdv : (u128.new d).Valid := new_valid (by simp only [P64]; omega)
  obtain ⟨hm1, hm2, _⟩ := overflowing_mul_spec acc (u128.new r) hacc hrv
  rw [new_toNat] at hm1
  have hmod : acc.toNat * r % P128 = acc.toNat * r := Nat.mod_eq_of_lt hlt
  rw [hmod] at hm1
  refine ⟨(acc.overflowing_mul (u128.new r)).1, ?_, ?_⟩
  · rw [checked_mul_spec acc (u128.new r) hacc hrv, new_toNat, if_neg (by omega)]
  · rw [checked_add_spec _ (u128.new d) hm2 hdv, new_toNat, hm1, if_pos (by omega)]

theorem fsr_loop_ok (r : Nat) (hr2 : 2 ≤ r) (hr36 : r ≤ 36) :
    ∀ (cs : List Char) (acc : u128), acc.Valid →
      (∀ c ∈ cs, (to_digit c r).isSome) →
      digitsVal r acc.toNat (cs.map (fun c => (to_digit c r).getD 0)) < P128 →
      fsr_loop r cs acc =
        .ok (u128.ofNat (digitsVal r acc.toNat (cs.map (fun c => (to_digit c r).getD 0)))) := by
  intro cs
  induction cs with
  | nil =>
    intro acc hacc _ _
    simp [fsr_loop, digitsVal_nil, u128_ofNat_toNat hacc]
  | cons c cs ih =>
    intro acc hacc hval hlt
    have hc : (to_digit c r).isSome := hval c (by simp)
    obtain ⟨d, hd⟩ := Option.isSome_iff_exists.mp hc
    have hdr : d < r := to_digit_lt hd
    have hmap : (c :: cs).map (fun c2 => (to_digit c2 r).getD 0)
        = d :: cs.map (fun c2 => (to_digit c2 r).getD 0) := by
      simp [hd]
    rw [hmap, digitsVal_cons] at hlt ⊢
    have hmono : acc.toNat * r + d
        ≤ digitsVal r (acc.toNat * r + d) (cs.map (fun c2 => (to_digit c2 r).getD 0)) :=
      digitsVal_ge r (by omega) _ _
    obtain ⟨m, acc2, hm, ha2, hv2, ht2⟩ :=
      fsr_step_ok acc r d hacc hr36 (by omega) (by omega)
    simp only [fsr_loop, hd, hm, ha2]
    rw [ih acc2 hv2 (fun c2 hc2 => hval c2 (by simp [hc2])) (by rw [ht2]; exact hlt), ht2]
  
theorem fsr_loop_overflow (r : Nat) (hr2 : 2 ≤ r) (hr36 : r ≤ 36) :
    ∀ (p : List Char) (acc : u128), acc.Valid →
      (∀ c ∈ p, (to_digit c r).isSome) →
      P128 ≤ digitsVal r acc.toNat (p.map (fun c => (to_digit c r).getD 0)) →
      ∀ rest, fsr_loop r (p ++ rest) acc = .error .Overflow := by
  intro p
  induction p with
  | nil =>
    intro acc hacc _ hge _
    have := u128_toNat_lt hacc
    rw [List.map_nil, digitsVal_nil] at hge
    omega
  | cons c p ih =>
    intro acc hacc hval hge rest
    have hc : (to_digit c r).isSome := hval c (by simp)
    obtain ⟨d, hd⟩ := Option.isSome_iff_exists.mp hc
    have hdr : d < r := to_digit_lt hd
    have hmap : (c :: p).map (fun c2 => (to_digit c2 r).getD 0)
        = d :: p.map (fun c2 => (to_digit c2 r).getD 0) := by
      simp [hd]
    rw [hmap, digitsVal_cons] at hge
    by_cases hmul : P128 ≤ acc.toNat * r
    · have hnone := fsr_step_mul_overflow acc r hacc hr36 hmul
      simp [fsr_loop, hd, hnone]
    · by_cases hadd : P128 ≤ acc.toNat * r + d
      · obtain ⟨m, hm, hnone⟩ :=
          fsr_step_add_overflow acc r d hacc hr36 (by omega) (by omega) hadd
        simp [fsr_loop, hd, hm, hnone]
      · obtain ⟨m, acc2, hm, ha2, hv2, ht2⟩ :=
          fsr_step_ok acc r d hacc hr36 (by omega) (by omega)
        simp only [List.cons_append, fsr_loop, hd, hm, ha2]
        exact ih acc2 hv2 (fun c2 hc2 => hval c2 (by simp [hc2]))
          (by rw [ht2]; exact hge) rest

theorem fsr_loop_invalid (r : Nat) (hr2 : 2 ≤ r) (hr36 : r ≤ 36) :
    ∀ (p : List Char) (c : Char) (post : List Char) (acc : u128), acc.Valid →
      (∀ c2 ∈ p, (to_digit c2 r).isSome) →
      to_digit c r = none →
      digitsVal r acc.toNat (p.map (fun c2 => (to_digit c2 r).getD 0)) < P128 →
      fsr_loop r (p ++ c :: post) acc = .error .InvalidDigit := by
  intro p
  induction p with
  | nil =>
    intro c post acc hacc _ hnone _
    simp [fsr_loop, hnone]
  | cons c2 p ih =>
    intro c post acc hacc hval hnone hlt
    have hc : (to_digit c2 r).isSome := hval c2 (by simp)
    obtain ⟨d, hd⟩ := Option.isSome_iff_exists.mp hc
    have hdr : d < r := to_digit_lt hd
    have hmap : (c2 :: p).map (fun c3 => (to_digit c3 r).getD 0)
        = d :: p.map (fun c3 => (to_digit c3 r).getD 0) := by
      simp [hd]
    rw [hmap, digitsVal_cons] at hlt
    have hmono : acc.toNat * r + d
        ≤ digitsVal r (acc.toNat * r + d) (p.map (fun c3 => (to_digit c3 r).getD 0)) :=
      digitsVal_ge r (by omega) _ _
    obtain ⟨m, acc2, hm, ha2, hv2, ht2⟩ :=
      fsr_step_ok acc r d hacc hr36 (by omega) (by omega)
    simp only [List.cons_append, fsr_loop, hd, hm, ha2]
    exact ih c post acc2 hv2 (fun c3 hc3 => hval c3 (by simp [hc3])) hnone
      (by rw [ht2]; exact hlt)

theorem to_digit_toDigitChar_36 :
    ∀ d : Fin 36, to_digit (toDigitChar d.val) 36 = some d.val := by
  decide

theorem to_digit_mono (c : Char) (r v : Nat) (h36 : to_digit c 36 = some v)
    (hvr : v < r) : to_digit c r = some v := by
  simp only [to_digit] at h36 ⊢
  split at h36
  · split at h36
    · simp at h36
      subst h36
      simp [hvr]
    · simp at h36
  · simp at h36

theorem to_digit_toDigitChar (d r : Nat) (hd : d < r) (hr : r ≤ 36) :
    to_digit (toDigitChar d) r = some d := by
  have hd36 : d < 36 := by omega
  exact to_digit_mono _ r d (to_digit_toDigitChar_36 ⟨d, hd36⟩) hd

/-- C8 counterexample: 39 nines followed by `z` in radix 10 contains an
invalid digit character, yet parsing reports `Overflow`, not
`InvalidDigit`, because the accumulated nines overflow before `z` is
reached. -/
theorem C8_counterexample :
    (∃ c ∈ ("999999999999999999999999999999999999999z" : String).toList,
      to_digit c 10 = none) ∧
    from_str_radix ("999999999999999999999999999999999999999z" : String).toList 10
      = some (.error .Overflow) ∧
    from_str_radix ("999999999999999999999999999999999999999z" : String).toList 10
      ≠ some (.error .InvalidDigit) := by
  refine ⟨⟨'z', by decide, by decide⟩, by decide, by decide⟩

/-- C8 amended: for a radix in `[2, 36]`, an empty input yields `Empty`;
an all-valid digit string yields the accumulated value, or `Overflow` once
the accumulation exceeds `MAX`; a string with an invalid character yields
`InvalidDigit` only when the digits before the first invalid character
have not already overflowed — otherwise `Overflow` wins; a radix outside
`[2, 36]` is an assertion panic. Digit characters fold left to right as
`checked_mul` by the radix then `checked_add` of the digit, never wrapping
silently. -/
theorem C8_from_str_radix_amended (radix : Nat) (h2 : 2 ≤ radix)
    (h36 : radix ≤ 36) :
    (∀ (src : List Char) (r2 : Nat), r2 < 2 ∨ 36 < r2 →
      from_str_radix src r2 = none) ∧
    from_str_radix [] radix = some (.error .Empty) ∧
    (∀ src : List Char, src ≠ [] → (∀ c ∈ src, (to_digit c radix).isSome) →
      (charsVal radix src < P128 →
        from_str_radix src radix = some (.ok (u128.ofNat (charsVal radix src)))) ∧
      (P128 ≤ charsVal radix src →
        from_str_radix src radix = some (.error .Overflow))) ∧
    (∀ (p : List Char) (c : Char) (post : List Char),
      (∀ c2 ∈ p, (to_digit c2 radix).isSome) → to_digit c radix = none →
      (charsVal radix p < P128 →
        from_str_radix (p ++ c :: post) radix = some (.error .InvalidDigit)) ∧
      (P128 ≤ charsVal radix p →
        from_str_radix (p ++ c :: post) radix = some (.error .Overflow))) := by
  have hz : ZERO.toNat = 0 := toNat_ZERO
  refine ⟨?_, ?_, ?_, ?_⟩
  · intro src r2 hr2
    simp only [from_str_radix]
    rw [if_pos (by omega)]
  · simp [from_str_radix]
    omega
  · intro src hne hval
    have hlen : src.length ≠ 0 := by
      simpa using fun h => hne (List.length_eq_zero.mp h)
    have hform : from_str_radix src radix = some (fsr_loop radix src ZERO) := by
      simp only [from_str_radix]
      rw [if_neg (by omega), if_neg hlen]
    constructor
    · intro hlt
      rw [hform, fsr_loop_ok radix h2 h36 src ZERO ZERO_valid hval
        (by rw [hz]; exact hlt)]
      simp only [charsVal, hz]
    · intro hge
      rw [hform]
      have := fsr_loop_overflow radix h2 h36 src ZERO ZERO_valid hval
        (by rw [hz]; exact hge) []
      rw [List.append_nil] at this
      rw [this]
  · intro p c post hval hnone
    have hlen : (p ++ c :: post).length ≠ 0 := by
      simp
    have hform : from_str_radix (p ++ c :: post) radix
        = some (fsr_loop radix (p ++ c :: post) ZERO) := by
      simp only [from_str_radix]
      rw [if_neg (by omega), if_neg hlen]
    constructor
    · intro hlt
      rw [hform, fsr_loop_invalid radix h2 h36 p c post ZERO ZERO_valid hval hnone
        (by rw [hz]; exact hlt)]
    · intro hge
      rw [hform, fsr_loop_overflow radix h2 h36 p ZERO ZERO_valid hval
        (by rw [hz]; exact hge) (c :: post)]

/-- Witness for the amended C8 at radix 10. -/
theorem C8_from_str_radix_amended_witness :
    (∀ (src : List Char) (r2 : Nat), r2 < 2 ∨ 36 < r2 →
      from_str_radix src r2 = none) ∧
    from_str_radix [] 10 = some (.error .Empty) ∧
    (∀ src : List Char, src ≠ [] → (∀ c ∈ src, (to_digit c 10).isSome) →
      (charsVal 10 src < P128 →
        from_str_radix src 10 = some (.ok (u128.ofNat (charsVal 10 src)))) ∧
      (P128 ≤ charsVal 10 src →
        from_str_radix src 10 = some (.error .Overflow))) ∧
    (∀ (p : List Char) (c : Char) (post : List Char),
      (∀ c2 ∈ p, (to_digit c2 10).isSome) → to_digit c 10 = none →
      (charsVal 10 p < P128 →
        from_str_radix (p ++ c :: post) 10 = some (.error .InvalidDigit)) ∧
      (P128 ≤ charsVal 10 p →
        from_str_radix (p ++ c :: post) 10 = some (.error .Overflow))) :=
  C8_from_str_radix_amended 10 (by decide) (by decide)

theorem from_str_radix_ok_of (r : Nat) (h2 : 2 ≤ r) (h36 : r ≤ 36)
    (src : List Char) (hne : src ≠ [])
    (hval : ∀ c ∈ src, (to_digit c r).isSome)
    (hlt : charsVal r src < P128) :
    from_str_radix src r = some (.ok (u128.ofNat (charsVal r src))) := by
  have hlen : src.length ≠ 0 := by
    simpa using fun h => hne (List.length_eq_zero.mp h)
  simp only [from_str_radix]
  rw [if_neg (by omega), if_neg hlen,
    fsr_loop_ok r h2 h36 src ZERO ZERO_valid hval (by rw [toNat_ZERO]; exact hlt)]
  simp only [charsVal, toNat_ZERO]

theorem charsVal_map_toDigitChar (r : Nat) (hr : r ≤ 36) (ds : List Nat)
    (hds : ∀ d ∈ ds, d < r) :
    (ds.map toDigitChar).map (fun c => (to_digit c r).getD 0) = ds := by
  induction ds with
  | nil => rfl
  | cons d ds ih =>
    have hd : d < r := hds d (by simp)
    simp only [List.map_cons, to_digit_toDigitChar d r hd hr, Option.getD_some]
    rw [ih (fun d2 hd2 => hds d2 (by simp [hd2]))]

theorem map_toDigitChar_isSome (r : Nat) (hr : r ≤ 36) (ds : List Nat)
    (hds : ∀ d ∈ ds, d < r) :
    ∀ c ∈ ds.map toDigitChar, (to_digit c r).isSome := by
  intro c hc
  simp only [List.mem_map] at hc
  obtain ⟨d, hd, rfl⟩ := hc
  rw [to_digit_toDigitChar d r (hds d hd) hr]
  rfl

theorem charsVal_format_radix (x : u128) (r : Nat) (h2 : 2 ≤ r) (h36 : r ≤ 36) :
    charsVal r (format_radix x r) = x.toNat := by
  obtain ⟨hv, _, hd⟩ := natToDigits_spec r x.toNat h2
  simp only [format_radix, charsVal]
  rw [charsVal_map_toDigitChar r h36 _ hd]
  exact hv

theorem natDecChars_val (n : Nat) : charsVal 10 (natDecChars n) = n := by
  obtain ⟨hv, _, hd⟩ := natToDigits_spec 10 n (by omega)
  simp only [natDecChars, charsVal]
  rw [charsVal_map_toDigitChar 10 (by omega) _ hd]
  exact hv

theorem natDecChars_valid (n : Nat) :
    ∀ c ∈ natDecChars n, (to_digit c 10).isSome := by
  obtain ⟨_, _, hd⟩ := natToDigits_spec 10 n (by omega)
  exact map_toDigitChar_isSome 10 (by omega) _ hd

theorem natDecChars_ne_nil (n : Nat) : natDecChars n ≠ [] := by
  obtain ⟨_, hne, _⟩ := natToDigits_spec 10 n (by omega)
  simp [natDecChars, hne]

theorem charsVal_append (r : Nat) (s1 s2 : List Char) :
    charsVal r (s1 ++ s2) = charsVal r s1 * r ^ s2.length + charsVal r s2 := by
  simp only [charsVal, List.map_append, digitsVal_append]
  rw [digitsVal_acc]
  simp [List.length_map]

theorem charsVal_replicate_zero_char (r k : Nat) (hr : 1 ≤ r) :
    charsVal r (List.replicate k '0') = 0 := by
  have h0 : to_digit '0' r = some 0 := by
    simp only [to_digit]
    rw [if_pos (show '0' ≤ '0' ∧ '0' ≤ '9' by decide)]
    rw [show '0'.toNat - '0'.toNat = 0 from by decide]
    simp only []
    rw [if_pos (by omega : 0 < r)]
  simp only [charsVal, List.map_replicate, h0, Option.getD_some]
  exact digitsVal_replicate_zero r k

theorem pad19_len (b : Nat) (hb : b < 10 ^ 19) : (pad19 b).length = 19 := by
  have hlen : (natDecChars b).length ≤ 19 := by
    have := natToDigits_len 10 b 19 (by omega) (by omega) hb
    simpa [natDecChars] using this
  simp only [pad19, List.length_append, List.length_replicate]
  omega

theorem pad19_val (b : Nat) : charsVal 10 (pad19 b) = b := by
  simp only [pad19]
  rw [charsVal_append, charsVal_replicate_zero_char 10 _ (by omega),
    natDecChars_val]
  ring

theorem pad19_valid (b : Nat) : ∀ c ∈ pad19 b, (to_digit c 10).isSome := by
  intro c hc
  simp only [pad19, List.mem_append, List.mem_replicate] at hc
  rcases hc with ⟨_, rfl⟩ | hc
  · decide
  · exact natDecChars_valid b c hc

theorem pad19_ne_nil (b : Nat) : pad19 b ≠ [] := by
  intro h
  simp only [pad19, List.append_eq_nil] at h
  exact natDecChars_ne_nil b h.2

theorem div_rem_ten19 (y : u128) :
    div_rem y ⟨10000000000000000000, 0⟩
      = some (u128.ofNat (y.toNat / 10000000000000000000),
              u128.ofNat (y.toNat % 10000000000000000000)) := by
  simp only [div_rem, udivmod128]
  rw [if_neg (by decide)]
  rfl

theorem toDecimalString_spec (x : u128) (hx : x.Valid) :
    charsVal 10 (toDecimalString x) = x.toNat ∧
    toDecimalString x ≠ [] ∧
    (∀ c ∈ toDecimalString x, (to_digit c 10).isSome) := by
  have hN := u128_toNat_lt hx
  simp only [P128] at hN
  by_cases hhi : x.hi = 0
  · have hlo : x.toNat = x.lo := by
      simp [u128.toNat, hhi]
    simp only [toDecimalString, if_pos hhi]
    exact ⟨by rw [natDecChars_val, hlo], natDecChars_ne_nil _, natDecChars_valid _⟩
  · simp only [toDecimalString, if_neg hhi, div_rem_ten19]
    have hmidhi : (u128.ofNat (x.toNat / 10000000000000000000)).hi
        = x.toNat / 10000000000000000000 / 18446744073709551616 := by
      simp only [u128.ofNat, P64]
      omega
    have hmidlo : (u128.ofNat (x.toNat / 10000000000000000000)).lo
        = x.toNat / 10000000000000000000 % 18446744073709551616 := by
      simp only [u128.ofNat, P64]
    have hlolo : (u128.ofNat (x.toNat % 10000000000000000000)).lo
        = x.toNat % 10000000000000000000 := by
      simp only [u128.ofNat, P64]
      omega
    by_cases hmh : (u128.ofNat (x.toNat / 10000000000000000000)).hi = 0
    · simp only [if_pos hmh]
      refine ⟨?_, ?_, ?_⟩
      · rw [charsVal_append, natDecChars_val, pad19_val,
          pad19_len _ (by omega), hmidlo, hlolo]
        rw [hmidhi] at hmh
        omega
      · intro h
        exact natDecChars_ne_nil _ (List.append_eq_nil.mp h).1
      · intro c hc
        rcases List.mem_append.mp hc with hc | hc
        · exact natDecChars_valid _ c hc
        · exact pad19_valid _ c hc
    · simp only [if_neg hmh, div_rem_ten19]
      have hmt : (u128.ofNat (x.toNat / 10000000000000000000)).toNat
          = x.toNat / 10000000000000000000 :=
        u128_toNat_ofNat (by simp only [P128]; omega)
      rw [hmt]
      have hhilo : (u128.ofNat (x.toNat / 10000000000000000000 / 10000000000000000000)).lo
          = x.toNat / 10000000000000000000 / 10000000000000000000 := by
        simp only [u128.ofNat, P64]
        omega
      have hmid2lo : (u128.ofNat (x.toNat / 10000000000000000000 % 10000000000000000000)).lo
          = x.toNat / 10000000000000000000 % 10000000000000000000 := by
        simp only [u128.ofNat, P64]
        omega
      refine ⟨?_, ?_, ?_⟩
      · rw [charsVal_append, charsVal_append, natDecChars_val, pad19_val,
          pad19_val, pad19_len _ (by omega), pad19_len _ (by omega),
          hhilo, hmid2lo, hlolo]
        omega
      · intro h
        have h1 := (List.append_eq_nil.mp h).1
        exact natDecChars_ne_nil _ (List.append_eq_nil.mp h1).1
      · intro c hc
        rcases List.mem_append.mp hc with hc | hc
        · rcases List.mem_append.mp hc with hc | hc
          · exact natDecChars_valid _ c hc
          · exact pad19_valid _ c hc
        · exact pad19_valid _ c hc

/-- C9: parsing the base-`r` rendering of `x` back in radix `r` recovers
`x` for every radix in `[2, 36]`; in particular the decimal `Display`
string of `x` parses back to `x` in radix 10, and the decimal rendering of
`MAX` is the expected 39-digit string. -/
theorem C9_radix_round_trip (x : u128) (r : Nat) (hx : x.Valid) (h2 : 2 ≤ r)
    (h36 : r ≤ 36) :
    from_str_radix (format_radix x r) r = some (.ok x) ∧
    from_str_radix (toDecimalString x) 10 = some (.ok x) ∧
    toDecimalString MAX = ("340282366920938463463374607431768211455" : String).toList := by
  refine ⟨?_, ?_, by decide⟩
  · have hcv := charsVal_format_radix x r h2 h36
    obtain ⟨hv, hne, hd⟩ := natToDigits_spec r x.toNat h2
    have hne2 : format_radix x r ≠ [] := by
      simp [format_radix, hne]
    have hval : ∀ c ∈ format_radix x r, (to_digit c r).isSome :=
      map_toDigitChar_isSome r h36 _ hd
    rw [from_str_radix_ok_of r h2 h36 _ hne2 hval
      (by rw [hcv]; exact u128_toNat_lt hx), hcv, u128_ofNat_toNat hx]
  · obtain ⟨hv, hne, hval⟩ := toDecimalString_spec x hx
    rw [from_str_radix_ok_of 10 (by omega) (by omega) _ hne hval
      (by rw [hv]; exact u128_toNat_lt hx), hv, u128_ofNat_toNat hx]

/-- Witness for C9 at `x = from_parts 1 2`, `r = 16`. -/
theorem C9_radix_round_trip_witness :
    from_str_radix (format_radix (from_parts 1 2) 16) 16 = some (.ok (from_parts 1 2)) ∧
    from_str_radix (toDecimalString (from_parts 1 2)) 10 = some (.ok (from_parts 1 2)) ∧
    toDecimalString MAX = ("340282366920938463463374607431768211455" : String).toList :=
  C9_radix_round_trip (from_parts 1 2) 16 (by decide) (by decide) (by decide)

end Extprim
